import Mathlib

/-!
Verification of the Gecko cheat-code configuration core
(Source/Core/Core/GeckoCodeConfig.cpp).

Strings are embedded as lists of characters (`Str`); the section-keyed
line storage (IniFile) is embedded as a total map from section names to
line sequences, following the spec's get_lines/set_lines contract.
-/

namespace Gecko

/-- A text line / string of the configuration format, embedded as a list of
characters. -/
abbrev Str := List Char

/-- The whitespace characters stripped and skipped by the C library
classification used in the source (isspace / stream skipws). -/
def isSpace (c : Char) : Bool :=
  c = ' ' || c = '\t' || c = '\n' || c = '\r' || c = '\x0b' || c = '\x0c'

/-- Hexadecimal digit test, as accepted by stream extraction with std::hex. -/
def isHexDigit (c : Char) : Bool :=
  ('0' ≤ c && c ≤ '9') || ('a' ≤ c && c ≤ 'f') || ('A' ≤ c && c ≤ 'F')

/-- Numeric value of one hexadecimal digit. -/
def hexVal (c : Char) : Nat :=
  if '0' ≤ c && c ≤ '9' then c.toNat - '0'.toNat
  else if 'a' ≤ c && c ≤ 'f' then c.toNat - 'a'.toNat + 10
  else c.toNat - 'A'.toNat + 10

/-- Accumulate a run of hexadecimal digits into a number (most significant
digit first), as stream extraction does. -/
def hexAccum (ds : Str) : Nat :=
  ds.foldl (fun a c => a * 16 + hexVal c) 0

/-- One formatted hexadecimal extraction from a character stream
(std::istream with std::hex into an unsigned 32-bit value): skip leading
whitespace, then read the maximal run of hexadecimal digits; an empty run is
an extraction failure (`none`).  The value is reduced modulo 2^32 as a
32-bit unsigned read.  Locale sign/base-prefix handling is elided: no claim
depends on it. Returns the decoded value (if any) and the rest of the
stream. -/
def scanHex (s : Str) : Option Nat × Str :=
  let s1 := s.dropWhile isSpace
  let ds := s1.takeWhile isHexDigit
  if ds.isEmpty then (none, s1) else (some (hexAccum ds % 2 ^ 32), s1.drop ds.length)

/-- The address decoded from a patch line: the first hexadecimal extraction,
zero when the extraction fails (C++11 stores 0 on a failed extraction). -/
def decodeAddress (line : Str) : Nat :=
  ((scanHex line).1).getD 0

/-- The data value decoded from a patch line: the second hexadecimal
extraction; zero when it fails, and zero when the first extraction already
failed (the stream is then in a failed state and the second extraction does
not run, leaving the default-zero field). -/
def decodeData (line : Str) : Nat :=
  match scanHex line with
  | (none, _) => 0
  | (some _, rest) => ((scanHex rest).1).getD 0

/-- Modelled from the spec: one Patch record (GeckoCode::Code of
Core/GeckoCodeConfig.h, a header not present in src/): decoded address and
data, default zero, plus the verbatim original source line. -/
structure Code where
  address : Nat := 0
  data : Nat := 0
  original_line : Str := []
deriving Repr, DecidableEq

/-- Modelled from the spec: one Entry record (struct GeckoCode of
Core/GeckoCodeConfig.h, a header not present in src/): name, creator,
patch list, note list, and the three flags, all defaulting to
empty / false as the spec's data model states. -/
structure GeckoCode where
  name : Str := []
  creator : Str := []
  codes : List Code := []
  notes : List Str := []
  enabled : Bool := false
  user_defined : Bool := false
  bootstrap_enabled : Bool := false
deriving Repr, DecidableEq

/-- Modelled from the spec: the external section-keyed line storage
(Common/IniFile.h, not present in src/), reduced to its
get_lines / set_lines contract on named sections. -/
structure IniFile where
  getLines : String → List Str

/-- Modelled from the spec: set_lines replaces one named section's line
sequence and leaves every other section unchanged. -/
def IniFile.setLines (ini : IniFile) (section_name : String) (lines : List Str) : IniFile :=
  ⟨fun t => if t = section_name then lines else ini.getLines t⟩

/-- Modelled from the spec: StripSpaces (Common/StringUtil, not present in
src/) trims surrounding whitespace from both ends of a string. -/
def stripSpaces (s : Str) : Str :=
  ((s.dropWhile isSpace).reverse.dropWhile isSpace).reverse

/-- The Code built from one patch line (the default switch branch of
ParseCodes): the original line is retained verbatim and the two
hexadecimal fields are decoded best-effort. -/
def readCodeLine (line : Str) : Code :=
  { address := decodeAddress line, data := decodeData line, original_line := line }

/-- Parsing of one entry-header line (the case where line[0] is a dollar
sign in ParseCodes): skip the marker, read up to the first opening square
bracket as the name (trimmed), and if that bracket was present read up to a
closing square bracket as the creator; otherwise the creator stays empty
(the stream is exhausted or failed, so the second getline stores nothing). -/
def parseTitleLine (line : Str) (is_user_ini : Bool) : GeckoCode :=
  let rest := line.tail
  let nameRaw := rest.takeWhile (fun c => c != '[')
  let rest2 := rest.dropWhile (fun c => c != '[')
  let creator : Str :=
    match rest2 with
    | [] => []
    | _ :: t => t.takeWhile (fun c => c != ']')
  { name := stripSpaces nameRaw, creator := creator, user_defined := is_user_ini }

/-- One iteration of the line loop of ParseCodes, acting on the pair of the
codes emitted so far and the entry in progress. An empty line is skipped; a
line starting the new-entry marker finalizes a non-empty-named entry in
progress and starts a fresh one; a note-marker line appends the remainder
to the notes; any other line is a patch line. -/
def parseLine (is_user_ini : Bool) (st : List GeckoCode × GeckoCode) (line : Str) :
    List GeckoCode × GeckoCode :=
  match line with
  | [] => st
  | c :: rest =>
    if c = '$' then
      (if st.2.name ≠ [] then st.1 ++ [st.2] else st.1, parseTitleLine line is_user_ini)
    else if c = '*' then
      (st.1, { st.2 with notes := st.2.notes ++ [rest] })
    else
      (st.1, { st.2 with codes := st.2.codes ++ [readCodeLine line] })

/-- ParseCodes: populate a vector of Gecko codes from the entry section of
an INI file, appending to the caller-supplied vector; after the line loop
the last entry in progress is appended when its name is non-empty. -/
def ParseCodes (ini : IniFile) (gcodes : List GeckoCode) (is_user_ini : Bool) :
    List GeckoCode :=
  let st := (ini.getLines "Gecko").foldl (parseLine is_user_ini) (gcodes, {})
  if st.2.name ≠ [] then st.1 ++ [st.2] else st.1

/-- MarkEnabledCodes: for each line of the local INI's activation-marker
section that starts with the dollar marker, set enabled on every code of
the set whose name equals the remainder of the line. -/
def MarkEnabledCodes (localIni : IniFile) (gcodes : List GeckoCode) : List GeckoCode :=
  (localIni.getLines "Gecko_Enabled").foldl
    (fun gs line =>
      match line with
      | [] => gs
      | c :: rest =>
        if c = '$' then
          gs.map (fun ogcode => if ogcode.name = rest then { ogcode with enabled := true } else ogcode)
        else gs)
    gcodes

/-- MarkBootstrapCodes: same scan over the global INI's activation-marker
section, setting bootstrap_enabled instead. -/
def MarkBootstrapCodes (globalIni : IniFile) (gcodes : List GeckoCode) : List GeckoCode :=
  (globalIni.getLines "Gecko_Enabled").foldl
    (fun gs line =>
      match line with
      | [] => gs
      | c :: rest =>
        if c = '$' then
          gs.map (fun ogcode => if ogcode.name = rest then { ogcode with bootstrap_enabled := true } else ogcode)
        else gs)
    gcodes

/-- MergeCodes: parse the global INI and append every entry to the working
set, then parse the local INI and append each local entry only when no
entry already in the working set has the same name. -/
def MergeCodes (globalIni localIni : IniFile) (working_set : List GeckoCode) :
    List GeckoCode :=
  let global_codes := ParseCodes globalIni [] false
  let ws1 := working_set ++ global_codes
  let local_codes := ParseCodes localIni [] true
  local_codes.foldl
    (fun ws local_code =>
      if ws.any (fun working_code => working_code.name == local_code.name) then ws
      else ws ++ [local_code])
    ws1

/-- FillLines: serialize one code into the pair of the entries-section
lines and the activation-marker lines accumulated so far. An enabled code
contributes its marker line regardless of origin; a non-user-defined code
contributes nothing to the entries section; a user-defined code emits its
header (with the creator bracketed when non-empty), its patch lines
verbatim, and its notes. -/
def FillLines (st : List Str × List Str) (gcode : GeckoCode) : List Str × List Str :=
  let enabledLines := if gcode.enabled then st.2 ++ ['$' :: gcode.name] else st.2
  if gcode.user_defined = false then (st.1, enabledLines)
  else
    let header : Str :=
      if gcode.creator.length ≠ 0 then
        '$' :: gcode.name ++ (' ' :: '[' :: (gcode.creator ++ [']']))
      else '$' :: gcode.name
    (st.1 ++ [header] ++ gcode.codes.map (fun code => code.original_line)
        ++ gcode.notes.map (fun note => '*' :: note),
     enabledLines)

/-- FillIni: serialize a whole code set into the two sections of an INI
file. -/
def FillIni (inifile : IniFile) (gcodes : List GeckoCode) : IniFile :=
  let st := gcodes.foldl FillLines ([], [])
  (inifile.setLines "Gecko" st.1).setLines "Gecko_Enabled" st.2

/-- BootstrapLocalConfig: write, as the local INI's activation-marker
section, one marker line per global code with bootstrap_enabled set. -/
def BootstrapLocalConfig (local_ini : IniFile) (global_codes : List GeckoCode) : IniFile :=
  let enabledLines :=
    global_codes.foldl
      (fun acc geckoCode =>
        if geckoCode.bootstrap_enabled then acc ++ ['$' :: geckoCode.name] else acc)
      []
  local_ini.setLines "Gecko_Enabled" enabledLines

/-! Spec-side characterizations and concrete sources used in the
statements. -/

/-- An INI file whose entry section holds the given lines and whose other
sections are empty. -/
def iniWithGecko (lines : List Str) : IniFile :=
  ⟨fun s => if s = "Gecko" then lines else []⟩

/-- An INI file whose activation-marker section holds the given lines and
whose other sections are empty. -/
def iniWithMarkers (lines : List Str) : IniFile :=
  ⟨fun s => if s = "Gecko_Enabled" then lines else []⟩

/-- The INI file with no content in any section. -/
def iniEmpty : IniFile := ⟨fun _ => []⟩

/-- Spec-side description of the local entries the Merge Engine adds: walk
the parsed local entries in order, skipping any whose name equals the name
of an entry already included (the accumulated set starts at the working set
already built from the global entries, and grows with each accepted local
entry). -/
def mergedLocals (ws : List GeckoCode) : List GeckoCode → List GeckoCode
  | [] => []
  | lc :: rest =>
    if ws.any (fun w => w.name == lc.name) then mergedLocals ws rest
    else lc :: mergedLocals (ws ++ [lc]) rest

/-- Spec-side description of the activation-marker output of the Format
Serializer: one marker line per enabled entry, in entry order, regardless
of origin. -/
def enabledMarkers (gcodes : List GeckoCode) : List Str :=
  (gcodes.filter (fun g => g.enabled)).map (fun g => '$' :: g.name)

/-- Spec-side description of the entries-section lines one entry
contributes: nothing for a non-user-defined entry; otherwise the header
(with the creator bracketed when non-empty), the patch lines verbatim, and
the notes. -/
def entryLines (gcode : GeckoCode) : List Str :=
  if gcode.user_defined = false then []
  else
    (if gcode.creator.length ≠ 0 then
        '$' :: gcode.name ++ (' ' :: '[' :: (gcode.creator ++ [']']))
      else '$' :: gcode.name)
      :: (gcode.codes.map (fun code => code.original_line)
          ++ gcode.notes.map (fun note => '*' :: note))

/-- Spec-side description of the whole entries-section output: the
concatenation of each entry's contribution, in order. -/
def geckoLines (gcodes : List GeckoCode) : List Str :=
  (gcodes.map entryLines).flatten

/-- Spec-side activation matching: whether some marker line consists of the
dollar marker followed exactly (case-sensitively) by the given name. -/
def markerHit (lines : List Str) (n : Str) : Bool :=
  lines.any (fun line =>
    match line with
    | [] => false
    | c :: rest => c == '$' && rest == n)

/-- The local-entry loop of MergeCodes is the spec-side selection: the fold
appends exactly the entries mergedLocals describes. -/
theorem foldl_addLocal (ls : List GeckoCode) : ∀ ws : List GeckoCode,
    ls.foldl
      (fun ws local_code =>
        if ws.any (fun working_code => working_code.name == local_code.name) then ws
        else ws ++ [local_code])
      ws
      = ws ++ mergedLocals ws ls := by
  induction ls with
  | nil => intro ws; simp [mergedLocals]
  | cons lc rest ih =>
    intro ws
    by_cases h : ws.any (fun w => w.name == lc.name) = true
    · simp only [List.foldl_cons, mergedLocals, h, if_true]
      exact ih ws
    · have h' : ws.any (fun w => w.name == lc.name) = false := by
        simpa using h
      simp only [List.foldl_cons, mergedLocals, h', if_false, Bool.false_eq_true]
      rw [ih (ws ++ [lc])]
      simp [List.append_assoc]

/-- MergeCodes equals the append of the incoming working set, the parsed
global entries, and the selected local entries. -/
theorem MergeCodes_eq (globalIni localIni : IniFile) (ws : List GeckoCode) :
    MergeCodes globalIni localIni ws =
      (ws ++ ParseCodes globalIni [] false) ++
        mergedLocals (ws ++ ParseCodes globalIni [] false) (ParseCodes localIni [] true) := by
  unfold MergeCodes
  exact foldl_addLocal _ _

/-- No selected local entry shares a name with any entry of the set it was
checked against. -/
theorem mergedLocals_fresh (ls : List GeckoCode) : ∀ ws : List GeckoCode,
    ∀ e ∈ mergedLocals ws ls, ∀ w ∈ ws, w.name ≠ e.name := by
  induction ls with
  | nil => intro ws e he; simp [mergedLocals] at he
  | cons lc rest ih =>
    intro ws e he w hw
    by_cases h : ws.any (fun w => w.name == lc.name) = true
    · rw [mergedLocals, if_pos h] at he
      exact ih ws e he w hw
    · have h' : ws.any (fun w => w.name == lc.name) = false := by simpa using h
      rw [mergedLocals, if_neg (by simp [h'])] at he
      rcases List.mem_cons.mp he with rfl | he'
      · have := List.any_eq_false.mp h' w hw
        simpa using this
      · exact ih (ws ++ [lc]) e he' w (List.mem_append_left _ hw)

/-- Appending the selected local entries to a working set with pairwise
distinct names keeps the names pairwise distinct. -/
theorem mergedLocals_nodup (ls : List GeckoCode) : ∀ ws : List GeckoCode,
    ((ws.map (fun g => g.name)).Nodup) →
      (((ws ++ mergedLocals ws ls).map (fun g => g.name)).Nodup) := by
  induction ls with
  | nil => intro ws h; simpa [mergedLocals] using h
  | cons lc rest ih =>
    intro ws h
    by_cases hc : ws.any (fun w => w.name == lc.name) = true
    · rw [mergedLocals, if_pos hc]
      exact ih ws h
    · have hc' : ws.any (fun w => w.name == lc.name) = false := by simpa using hc
      rw [mergedLocals, if_neg (by simp [hc'])]
      have hstep : (((ws ++ [lc]).map (fun g => g.name)).Nodup) := by
        rw [List.map_append, List.nodup_append]
        refine ⟨h, List.nodup_singleton _, ?_⟩
        intro a ha hb
        simp only [List.map_cons, List.map_nil, List.mem_singleton] at hb
        rcases List.mem_map.mp ha with ⟨w, hw, rfl⟩
        have := List.any_eq_false.mp hc' w hw
        simp only [beq_iff_eq] at this
        exact this (hb ▸ rfl)
      have := ih (ws ++ [lc]) hstep
      simpa [List.append_assoc] using this

/-- The marker-line fold of MarkEnabledCodes maps each entry to itself with
enabled set when some marker line matches its name, and leaves it exactly
as it was otherwise. -/
theorem markEnabled_lines (lines : List Str) : ∀ gs : List GeckoCode,
    lines.foldl
      (fun gs line =>
        match line with
        | [] => gs
        | c :: rest =>
          if c = '$' then
            gs.map (fun ogcode =>
              if ogcode.name = rest then { ogcode with enabled := true } else ogcode)
          else gs)
      gs
      = gs.map (fun g => if markerHit lines g.name then { g with enabled := true } else g) := by
  induction lines with
  | nil =>
    intro gs
    simp [markerHit]
  | cons line rest ih =>
    intro gs
    match line with
    | [] =>
      rw [List.foldl_cons]
      rw [ih gs]
      simp [markerHit]
    | c :: r =>
      by_cases hc : c = '$'
      · subst hc
        rw [List.foldl_cons]
        simp only [eq_self_iff_true, if_true]
        rw [ih]
        rw [List.map_map]
        apply List.map_congr_left
        intro g _
        simp only [Function.comp_apply]
        by_cases h1 : g.name = r
        · by_cases h2 : markerHit rest g.name
          · simp [h1, h2, markerHit, List.any_cons]
          · simp [h1, h2, markerHit, List.any_cons]
        · by_cases h2 : markerHit rest g.name
          · simp [h1, h2, markerHit, List.any_cons, Ne.symm h1]
          · simp [h1, h2, markerHit, List.any_cons, Ne.symm h1]
      · rw [List.foldl_cons]
        simp only [if_neg hc]
        rw [ih gs]
        apply List.map_congr_left
        intro g _
        have : (c == '$') = false := by simpa using hc
        simp [markerHit, List.any_cons, this]

/-- The marker-line fold of MarkBootstrapCodes, same shape with the
bootstrap flag. -/
theorem markBootstrap_lines (lines : List Str) : ∀ gs : List GeckoCode,
    lines.foldl
      (fun gs line =>
        match line with
        | [] => gs
        | c :: rest =>
          if c = '$' then
            gs.map (fun ogcode =>
              if ogcode.name = rest then { ogcode with bootstrap_enabled := true } else ogcode)
          else gs)
      gs
      = gs.map (fun g =>
          if markerHit lines g.name then { g with bootstrap_enabled := true } else g) := by
  induction lines with
  | nil =>
    intro gs
    simp [markerHit]
  | cons line rest ih =>
    intro gs
    match line with
    | [] =>
      rw [List.foldl_cons]
      rw [ih gs]
      simp [markerHit]
    | c :: r =>
      by_cases hc : c = '$'
      · subst hc
        rw [List.foldl_cons]
        simp only [eq_self_iff_true, if_true]
        rw [ih]
        rw [List.map_map]
        apply List.map_congr_left
        intro g _
        simp only [Function.comp_apply]
        by_cases h1 : g.name = r
        · by_cases h2 : markerHit rest g.name
          · simp [h1, h2, markerHit, List.any_cons]
          · simp [h1, h2, markerHit, List.any_cons]
        · by_cases h2 : markerHit rest g.name
          · simp [h1, h2, markerHit, List.any_cons, Ne.symm h1]
          · simp [h1, h2, markerHit, List.any_cons, Ne.symm h1]
      · rw [List.foldl_cons]
        simp only [if_neg hc]
        rw [ih gs]
        apply List.map_congr_left
        intro g _
        have : (c == '$') = false := by simpa using hc
        simp [markerHit, List.any_cons, this]

/-- C1. The claim as stated fails: nothing deduplicates the entries parsed
from the global source among themselves, so a global source whose entry
section declares the name A twice yields a merged working set with two
entries named A. -/
theorem merged_names_distinct_cex :
    ¬ (((MergeCodes (iniWithGecko [['$', 'A'], ['$', 'A']]) iniEmpty []).map
        (fun g => g.name)).Nodup) := by
  decide

/-- C1 (amended). Provided the entries parsed from the global source have
pairwise-distinct names, the working set produced by MergeCodes from an
initially empty working set has pairwise-distinct entry names: global
entries win every collision and a colliding local entry is discarded. -/
theorem merged_names_distinct (globalIni localIni : IniFile)
    (h : ((ParseCodes globalIni [] false).map (fun g => g.name)).Nodup) :
    (((MergeCodes globalIni localIni []).map (fun g => g.name)).Nodup) := by
  rw [MergeCodes_eq]
  have := mergedLocals_nodup (ParseCodes localIni [] true)
    ([] ++ ParseCodes globalIni [] false) (by simpa using h)
  simpa using this

/-- C1 witness: a duplicate-free global source, instantiated. -/
theorem merged_names_distinct_wit :
    (((ParseCodes (iniWithGecko [['$', 'A'], ['$', 'B']]) [] false).map
        (fun g => g.name)).Nodup)
    ∧ (((MergeCodes (iniWithGecko [['$', 'A'], ['$', 'B']])
          (iniWithGecko [['$', 'A'], ['$', 'C']]) []).map (fun g => g.name)).Nodup) :=
  ⟨by decide,
   merged_names_distinct (iniWithGecko [['$', 'A'], ['$', 'B']])
     (iniWithGecko [['$', 'A'], ['$', 'C']]) (by decide)⟩

/-- C2. The merged working set (from an empty initial working set) is the
parsed global entries in order followed by exactly the local entries whose
name does not equal the name of an already-included entry; and on global
entries A, B against local entries A, C it is exactly global A, global B,
local C, the local A being discarded. -/
theorem merge_precedence :
    (∀ globalIni localIni : IniFile,
      MergeCodes globalIni localIni [] =
        ParseCodes globalIni [] false ++
          mergedLocals (ParseCodes globalIni [] false) (ParseCodes localIni [] true))
    ∧ MergeCodes (iniWithGecko [['$', 'A'], ['$', 'B']])
        (iniWithGecko [['$', 'A'], ['$', 'C']]) [] =
        [{ name := ['A'] }, { name := ['B'] }, { name := ['C'], user_defined := true }] := by
  constructor
  · intro globalIni localIni
    simpa using MergeCodes_eq globalIni localIni []
  · decide

/-- C10. MergeCodes appends to the working set it is given without clearing
it: the result is the initial entries, then every entry parsed from the
global source, then the selected local entries; and any pre-existing
entry's name blocks every local entry of that name, exactly as an
earlier-included entry's does. -/
theorem mergeCodes_appends (globalIni localIni : IniFile) (ws : List GeckoCode) :
    MergeCodes globalIni localIni ws =
      ws ++ ParseCodes globalIni [] false ++
        mergedLocals (ws ++ ParseCodes globalIni [] false) (ParseCodes localIni [] true)
    ∧ ∀ w ∈ ws,
        ∀ e ∈ mergedLocals (ws ++ ParseCodes globalIni [] false)
            (ParseCodes localIni [] true),
          w.name ≠ e.name := by
  constructor
  · exact MergeCodes_eq globalIni localIni ws
  · intro w hw e he
    exact mergedLocals_fresh _ _ e he w (List.mem_append_left _ hw)

/-- C10 witness: a pre-existing entry named A blocks the local entry named
A even though the global source never mentions A. -/
theorem mergeCodes_appends_wit :
    MergeCodes (iniWithGecko [['$', 'B']]) (iniWithGecko [['$', 'A'], ['$', 'C']])
        [{ name := ['A'] }] =
      [({ name := ['A'] } : GeckoCode)] ++ ParseCodes (iniWithGecko [['$', 'B']]) [] false ++
        mergedLocals ([({ name := ['A'] } : GeckoCode)] ++ ParseCodes (iniWithGecko [['$', 'B']]) [] false)
          (ParseCodes (iniWithGecko [['$', 'A'], ['$', 'C']]) [] true)
    ∧ ({ name := ['A'] } : GeckoCode).name ≠ ({ name := ['C'], user_defined := true } : GeckoCode).name :=
  ⟨(mergeCodes_appends (iniWithGecko [['$', 'B']]) (iniWithGecko [['$', 'A'], ['$', 'C']])
      [{ name := ['A'] }]).1,
   (mergeCodes_appends (iniWithGecko [['$', 'B']]) (iniWithGecko [['$', 'A'], ['$', 'C']])
      [{ name := ['A'] }]).2 { name := ['A'] } (by decide)
      { name := ['C'], user_defined := true } (by decide)⟩

/-- MarkEnabledCodes maps each entry to itself with enabled set when some
activation-marker line of the local INI matches its name, leaving every
other field, and every non-matching entry, exactly as it was. -/
theorem MarkEnabledCodes_eq (localIni : IniFile) (gcodes : List GeckoCode) :
    MarkEnabledCodes localIni gcodes =
      gcodes.map (fun g =>
        if markerHit (localIni.getLines "Gecko_Enabled") g.name then
          { g with enabled := true }
        else g) := by
  unfold MarkEnabledCodes
  exact markEnabled_lines _ _

/-- MarkBootstrapCodes maps each entry to itself with bootstrap_enabled set
when some activation-marker line of the global INI matches its name,
leaving everything else as it was. -/
theorem MarkBootstrapCodes_eq (globalIni : IniFile) (gcodes : List GeckoCode) :
    MarkBootstrapCodes globalIni gcodes =
      gcodes.map (fun g =>
        if markerHit (globalIni.getLines "Gecko_Enabled") g.name then
          { g with bootstrap_enabled := true }
        else g) := by
  unfold MarkBootstrapCodes
  exact markBootstrap_lines _ _

/-- C4. The claim as stated fails: the resolvers only ever set flags to
true and never clear them, so the flags are not recomputed from the marker
section alone. An entry whose enabled flag is already true keeps it across
MarkEnabledCodes although no marker line names it. -/
theorem activation_recompute_cex :
    (MarkEnabledCodes iniEmpty [{ name := ['X'], enabled := true }]).map
        (fun g => g.enabled) = [true]
    ∧ markerHit (iniEmpty.getLines "Gecko_Enabled") ['X'] = false := by
  decide

/-- C4 (amended). Applying the Activation Resolver sets active
(respectively default_active) to true on exactly the entries whose name
appears as the remainder of some marker line beginning with the dollar
marker, and leaves the flag of every other entry at its value before the
call; the flags are therefore monotone under reapplication, not recomputed
from the marker section alone. -/
theorem activation_flags_monotone (localIni globalIni : IniFile)
    (entries : List GeckoCode) :
    MarkEnabledCodes localIni entries =
      entries.map (fun g =>
        if markerHit (localIni.getLines "Gecko_Enabled") g.name then
          { g with enabled := true }
        else g)
    ∧ MarkBootstrapCodes globalIni entries =
      entries.map (fun g =>
        if markerHit (globalIni.getLines "Gecko_Enabled") g.name then
          { g with bootstrap_enabled := true }
        else g) :=
  ⟨MarkEnabledCodes_eq localIni entries, MarkBootstrapCodes_eq globalIni entries⟩

/-- C5. MarkEnabledCodes sets enabled on exactly the entries whose name is
a character-exact match of the remainder of some marker line beginning with
the dollar marker, leaving non-matching entries untouched (so a fresh
non-matching entry stays inactive); lines not beginning with the marker and
empty lines have no effect, and all same-named duplicates are marked. The
two concrete conjuncts instantiate the X/Y example and the duplicate-name
case. -/
theorem mark_enabled_exact :
    (∀ (localIni : IniFile) (entries : List GeckoCode),
      MarkEnabledCodes localIni entries =
        entries.map (fun g =>
          if markerHit (localIni.getLines "Gecko_Enabled") g.name then
            { g with enabled := true }
          else g))
    ∧ MarkEnabledCodes (iniWithMarkers [['$', 'X']])
        [{ name := ['X'] }, { name := ['Y'] }] =
        [{ name := ['X'], enabled := true }, { name := ['Y'] }]
    ∧ MarkEnabledCodes (iniWithMarkers [['n', 'o'], [], ['$', 'X']])
        [{ name := ['X'] }, { name := ['X'], user_defined := true }] =
        [{ name := ['X'], enabled := true },
         { name := ['X'], user_defined := true, enabled := true }] := by
  refine ⟨fun localIni entries => MarkEnabledCodes_eq localIni entries, ?_, ?_⟩
  · decide
  · decide

/-- One FillLines step appends the entry's entries-section contribution and
its activation-marker contribution to the accumulators. -/
theorem FillLines_eq (ls es : List Str) (g : GeckoCode) :
    FillLines (ls, es) g =
      (ls ++ entryLines g, es ++ (if g.enabled then ['$' :: g.name] else [])) := by
  unfold FillLines entryLines
  by_cases hu : g.user_defined = false <;> by_cases hg : g.enabled <;>
    simp [hu, hg, List.append_assoc]

/-- The fold of FillLines over a code set appends the full entries-section
output and the full activation-marker output. -/
theorem FillLines_foldl (gcodes : List GeckoCode) : ∀ ls es : List Str,
    gcodes.foldl FillLines (ls, es) = (ls ++ geckoLines gcodes, es ++ enabledMarkers gcodes) := by
  induction gcodes with
  | nil => intro ls es; simp [geckoLines, enabledMarkers]
  | cons g rest ih =>
    intro ls es
    rw [List.foldl_cons, FillLines_eq, ih]
    have hgl : geckoLines (g :: rest) = entryLines g ++ geckoLines rest := by
      simp [geckoLines]
    have hem : enabledMarkers (g :: rest) =
        (if g.enabled then ['$' :: g.name] else []) ++ enabledMarkers rest := by
      by_cases hg : g.enabled <;> simp [enabledMarkers, List.filter_cons, hg]
    rw [hgl, hem]
    simp [List.append_assoc]

/-- A set of entries none of which is user-defined contributes no
entries-section lines at all. -/
theorem geckoLines_of_global (gcodes : List GeckoCode)
    (h : ∀ g ∈ gcodes, g.user_defined = false) : geckoLines gcodes = [] := by
  induction gcodes with
  | nil => simp [geckoLines]
  | cons g rest ih =>
    have hg := h g (List.mem_cons_self g rest)
    have hrest := ih (fun x hx => h x (List.mem_cons_of_mem g hx))
    simp [geckoLines] at hrest ⊢
    exact ⟨by simp [entryLines, hg], hrest⟩

/-- C6. FillIni writes, as the activation-marker section, one marker line
per enabled entry regardless of its origin flag; the entries-section
output of any (possibly mixed) sequence is the concatenation of the
per-entry contributions, and the contribution of every non-user-defined
entry is empty — so in particular a set holding no user-defined entry
serializes to an empty entries section even though its enabled entries
still appear among the markers. -/
theorem fill_global_omitted (inifile : IniFile) (gcodes : List GeckoCode) :
    (FillIni inifile gcodes).getLines "Gecko_Enabled" = enabledMarkers gcodes
    ∧ (FillIni inifile gcodes).getLines "Gecko" = geckoLines gcodes
    ∧ (∀ g : GeckoCode, g.user_defined = false → entryLines g = [])
    ∧ ((∀ g ∈ gcodes, g.user_defined = false) →
        (FillIni inifile gcodes).getLines "Gecko" = []) := by
  have h := FillLines_foldl gcodes [] []
  have hgecko : (FillIni inifile gcodes).getLines "Gecko" = geckoLines gcodes := by
    unfold FillIni
    rw [h]
    simp only [IniFile.setLines]
    have hne : ("Gecko" : String) ≠ "Gecko_Enabled" := by decide
    simp [hne]
  refine ⟨?_, hgecko, ?_, ?_⟩
  · unfold FillIni
    rw [h]
    simp [IniFile.setLines]
  · intro g hg
    simp [entryLines, hg]
  · intro hall
    rw [hgecko]
    exact geckoLines_of_global gcodes hall

/-- C6 witness: in a mixed set of one active global entry and one local
entry, the global entry contributes no entries-section lines while both
sections come out as characterized; an all-global active set yields an
empty entries section with both marker lines present. -/
theorem fill_global_omitted_wit :
    (FillIni iniEmpty [({ name := ['X'], enabled := true } : GeckoCode),
          { name := ['Y'], user_defined := true }]).getLines "Gecko_Enabled" =
        enabledMarkers [({ name := ['X'], enabled := true } : GeckoCode),
          { name := ['Y'], user_defined := true }]
    ∧ (FillIni iniEmpty [({ name := ['X'], enabled := true } : GeckoCode),
          { name := ['Y'], user_defined := true }]).getLines "Gecko" =
        geckoLines [({ name := ['X'], enabled := true } : GeckoCode),
          { name := ['Y'], user_defined := true }]
    ∧ ({ name := ['X'], enabled := true } : GeckoCode).user_defined = false
    ∧ entryLines ({ name := ['X'], enabled := true } : GeckoCode) = []
    ∧ (∀ g ∈ [({ name := ['X'], enabled := true } : GeckoCode),
            { name := ['Y'], enabled := true }], g.user_defined = false)
    ∧ (FillIni iniEmpty [({ name := ['X'], enabled := true } : GeckoCode),
          { name := ['Y'], enabled := true }]).getLines "Gecko" = [] :=
  ⟨(fill_global_omitted iniEmpty
      [{ name := ['X'], enabled := true }, { name := ['Y'], user_defined := true }]).1,
   (fill_global_omitted iniEmpty
      [{ name := ['X'], enabled := true }, { name := ['Y'], user_defined := true }]).2.1,
   rfl,
   (fill_global_omitted iniEmpty
      [{ name := ['X'], enabled := true }, { name := ['Y'], user_defined := true }]).2.2.1
     { name := ['X'], enabled := true } rfl,
   by decide,
   (fill_global_omitted iniEmpty
      [{ name := ['X'], enabled := true }, { name := ['Y'], enabled := true }]).2.2.2
     (by decide)⟩

/-- A fold pushing a projection of the elements that satisfy a test equals
appending the projected filtered list. -/
theorem foldl_pushIf {α β : Type} (p : α → Bool) (f : α → β) (l : List α) :
    ∀ acc : List β,
      l.foldl (fun acc x => if p x then acc ++ [f x] else acc) acc =
        acc ++ (l.filter p).map f := by
  induction l with
  | nil => intro acc; simp
  | cons x rest ih =>
    intro acc
    by_cases hx : p x <;> simp [List.filter_cons, hx, ih, List.append_assoc]

/-- C8. BootstrapLocalConfig writes, as the local activation-marker
section, exactly one marker line per global entry with the bootstrap flag
set, in entry order; every other section of the local INI (the entries
section included) is left untouched; and on entries X (default-active) and
Y (not) it writes exactly the marker for X. -/
theorem bootstrap_markers (local_ini : IniFile) (global_codes : List GeckoCode) :
    (BootstrapLocalConfig local_ini global_codes).getLines "Gecko_Enabled" =
      (global_codes.filter (fun g => g.bootstrap_enabled)).map (fun g => '$' :: g.name)
    ∧ (∀ s : String, s ≠ "Gecko_Enabled" →
        (BootstrapLocalConfig local_ini global_codes).getLines s = local_ini.getLines s)
    ∧ (BootstrapLocalConfig local_ini
          [{ name := ['X'], bootstrap_enabled := true }, { name := ['Y'] }]).getLines
        "Gecko_Enabled" = [['$', 'X']] := by
  refine ⟨?_, ?_, ?_⟩
  · unfold BootstrapLocalConfig
    rw [foldl_pushIf]
    simp [IniFile.setLines]
  · intro s hs
    unfold BootstrapLocalConfig
    simp [IniFile.setLines, hs]
  · unfold BootstrapLocalConfig
    rw [foldl_pushIf]
    simp [IniFile.setLines]

/-- C8 witness: the bootstrap of a fresh local INI leaves the entries
section empty and writes exactly the one marker. -/
theorem bootstrap_markers_wit :
    ("Gecko" : String) ≠ "Gecko_Enabled"
    ∧ (BootstrapLocalConfig iniEmpty
          [{ name := ['X'], bootstrap_enabled := true }, { name := ['Y'] }]).getLines
        "Gecko" = iniEmpty.getLines "Gecko"
    ∧ (BootstrapLocalConfig iniEmpty
          [{ name := ['X'], bootstrap_enabled := true }, { name := ['Y'] }]).getLines
        "Gecko_Enabled" = [['$', 'X']] :=
  ⟨by decide,
   (bootstrap_markers iniEmpty
      [{ name := ['X'], bootstrap_enabled := true }, { name := ['Y'] }]).2.1 "Gecko" (by decide),
   (bootstrap_markers iniEmpty
      [{ name := ['X'], bootstrap_enabled := true }, { name := ['Y'] }]).2.2⟩

/-- C7. The parser never aborts on a patch line: a non-empty line that is
neither an entry header nor a note is appended to the current entry's
codes with its original text equal to the full raw line, the remaining
lines are then parsed from that state exactly as they would be after any
patch line, and when the first hexadecimal extraction fails both decoded
fields are zero (when only the second fails, the address is kept and the
data is zero). -/
theorem parse_malformed_continue (is_user_ini : Bool) (gs : List GeckoCode)
    (cur : GeckoCode) (c : Char) (r : Str) (rest : List Str)
    (hc1 : c ≠ '$') (hc2 : c ≠ '*') :
    ((c :: r) :: rest).foldl (parseLine is_user_ini) (gs, cur) =
      rest.foldl (parseLine is_user_ini)
        (gs, { cur with codes := cur.codes ++ [readCodeLine (c :: r)] })
    ∧ (readCodeLine (c :: r)).original_line = c :: r
    ∧ ((scanHex (c :: r)).1 = none →
        readCodeLine (c :: r) = { address := 0, data := 0, original_line := c :: r })
    ∧ (∀ (a : Nat) (s2 : Str), scanHex (c :: r) = (some a, s2) → (scanHex s2).1 = none →
        readCodeLine (c :: r) = { address := a, data := 0, original_line := c :: r }) := by
  refine ⟨?_, rfl, ?_, ?_⟩
  · rw [List.foldl_cons]
    simp [parseLine, hc1, hc2]
  · intro h
    rcases hsc : scanHex (c :: r) with ⟨a, s⟩
    rw [hsc] at h
    simp only at h
    subst h
    simp [readCodeLine, decodeAddress, decodeData, hsc]
  · intro a s2 hsc h2
    simp [readCodeLine, decodeAddress, decodeData, hsc, h2]

/-- C7 witness: a line with no hexadecimal token, followed by a further
entry that is still parsed. -/
theorem parse_malformed_continue_wit :
    ([['G', 'G'], ['$', 'B']].foldl (parseLine true) ([], ({} : GeckoCode)) =
      [['$', 'B']].foldl (parseLine true)
        ([], { ({} : GeckoCode) with codes := ({} : GeckoCode).codes ++ [readCodeLine ['G', 'G']] }))
    ∧ (readCodeLine ['G', 'G']).original_line = ['G', 'G']
    ∧ readCodeLine ['G', 'G'] = { address := 0, data := 0, original_line := ['G', 'G'] } :=
  ⟨(parse_malformed_continue true [] {} 'G' ['G'] [['$', 'B']] (by decide) (by decide)).1,
   (parse_malformed_continue true [] {} 'G' ['G'] [['$', 'B']] (by decide) (by decide)).2.1,
   (parse_malformed_continue true [] {} 'G' ['G'] [['$', 'B']] (by decide) (by decide)).2.2.1
     (by decide)⟩

/-- The emitted-codes component of the parse state only ever receives
entries with a non-empty name. -/
theorem parse_inv (is_user_ini : Bool) (lines : List Str) :
    ∀ st : List GeckoCode × GeckoCode,
      (∀ e ∈ st.1, e.name ≠ []) →
      ∀ e ∈ (lines.foldl (parseLine is_user_ini) st).1, e.name ≠ [] := by
  induction lines with
  | nil => intro st h e he; exact h e he
  | cons line rest ih =>
    intro st h e he
    rw [List.foldl_cons] at he
    refine ih (parseLine is_user_ini st line) ?_ e he
    match line with
    | [] => simpa [parseLine] using h
    | c :: r =>
      by_cases hc : c = '$'
      · subst hc
        intro x hx
        simp only [parseLine, if_pos rfl] at hx
        by_cases hn : st.2.name ≠ []
        · rw [if_pos hn] at hx
          rcases List.mem_append.mp hx with hx' | hx'
          · exact h x hx'
          · rw [List.mem_singleton.mp hx']
            exact hn
        · rw [if_neg hn] at hx
          exact h x hx
      · by_cases hs : c = '*'
        · subst hs
          simpa [parseLine, hc] using h
        · simpa [parseLine, hc, hs] using h

/-- C9. Every entry the parser emits has a non-empty name (so the
placeholder holding lines seen before any header line is never emitted),
and an entry in progress at the end of the line sequence is emitted
without any trailing blank or header line, as the two concrete conjuncts
instantiate: a header followed by one patch line yields the finalized
entry, and patch or note lines before any header yield nothing. -/
theorem parse_finalization :
    (∀ (ini : IniFile) (is_user_ini : Bool),
      ∀ e ∈ ParseCodes ini [] is_user_ini, e.name ≠ [])
    ∧ ParseCodes (iniWithGecko [['$', 'A'], ['0', ' ', '1']]) [] true =
        [{ name := ['A'], user_defined := true,
           codes := [{ address := 0, data := 1, original_line := ['0', ' ', '1'] }] }]
    ∧ ParseCodes (iniWithGecko [['0', ' ', '1'], ['*', 'n']]) [] true = [] := by
  refine ⟨?_, by decide, by decide⟩
  intro ini is_user_ini e he
  unfold ParseCodes at he
  by_cases hn :
      ((ini.getLines "Gecko").foldl (parseLine is_user_ini) ([], {})).2.name ≠ []
  · rw [if_pos hn] at he
    rcases List.mem_append.mp he with he' | he'
    · exact parse_inv is_user_ini (ini.getLines "Gecko") ([], {}) (by simp) e he'
    · rw [List.mem_singleton.mp he']
      exact hn
  · rw [if_neg hn] at he
    exact parse_inv is_user_ini (ini.getLines "Gecko") ([], {}) (by simp) e he

/-- C9 witness: the entry parsed from a header-only source is in the
output and its name is non-empty. -/
theorem parse_finalization_wit :
    ({ name := ['A'], user_defined := true } : GeckoCode).name ≠ [] :=
  parse_finalization.1 (iniWithGecko [['$', 'A']]) true
    { name := ['A'], user_defined := true } (by decide)

/-- Dropping a prefix never lengthens a list. -/
theorem dropWhile_length_le (p : Char → Bool) : ∀ l : Str,
    (l.dropWhile p).length ≤ l.length := by
  intro l
  induction l with
  | nil => simp
  | cons c t ih =>
    by_cases hc : p c
    · rw [List.dropWhile_cons_of_pos hc]
      exact Nat.le_succ_of_le ih
    · rw [List.dropWhile_cons_of_neg hc]

/-- A dropWhile that keeps the length keeps the list. -/
theorem dropWhile_eq_self_of_length (p : Char → Bool) : ∀ l : Str,
    (l.dropWhile p).length = l.length → l.dropWhile p = l := by
  intro l h
  cases l with
  | nil => simp
  | cons c t =>
    by_cases hc : p c
    · exfalso
      rw [List.dropWhile_cons_of_pos hc] at h
      have := dropWhile_length_le p t
      simp only [List.length_cons] at h
      omega
    · rw [List.dropWhile_cons_of_neg hc]

/-- A string equal to its own trim has no leading and no trailing
whitespace. -/
theorem strip_invariant (n : Str) (h : stripSpaces n = n) :
    n.dropWhile isSpace = n ∧ n.reverse.dropWhile isSpace = n.reverse := by
  unfold stripSpaces at h
  have hlen : ((n.dropWhile isSpace).reverse.dropWhile isSpace).length = n.length := by
    rw [← List.length_reverse ((n.dropWhile isSpace).reverse.dropWhile isSpace), h]
  have h1 : ((n.dropWhile isSpace).reverse.dropWhile isSpace).length ≤
      (n.dropWhile isSpace).length := by
    have := dropWhile_length_le isSpace (n.dropWhile isSpace).reverse
    simpa using this
  have h2 : (n.dropWhile isSpace).length ≤ n.length := dropWhile_length_le isSpace n
  have hA : n.dropWhile isSpace = n :=
    dropWhile_eq_self_of_length isSpace n (by omega)
  refine ⟨hA, ?_⟩
  have hX : (n.dropWhile isSpace).reverse.dropWhile isSpace = n.reverse := by
    rw [← List.reverse_reverse ((n.dropWhile isSpace).reverse.dropWhile isSpace), h]
  rw [hA] at hX
  exact hX

/-- Trimming a string that is already trimmed and non-empty, after a single
space has been appended, recovers the string. -/
theorem stripSpaces_append_space (n : Str) (hne : n ≠ []) (h : stripSpaces n = n) :
    stripSpaces (n ++ [' ']) = n := by
  obtain ⟨hd', hr'⟩ := strip_invariant n h
  cases n with
  | nil => exact absurd rfl hne
  | cons a t =>
    have ha : ¬ isSpace a = true := by
      intro hsa
      rw [List.dropWhile_cons_of_pos hsa] at hd'
      have hle := dropWhile_length_le isSpace t
      have := congrArg List.length hd'
      simp only [List.length_cons] at this
      omega
    unfold stripSpaces
    rw [show (a :: t) ++ [' '] = a :: (t ++ [' ']) from rfl]
    rw [List.dropWhile_cons_of_neg ha]
    have hrev : (a :: (t ++ [' '])).reverse = ' ' :: (a :: t).reverse := by
      simp
    rw [hrev, List.dropWhile_cons_of_pos (by decide), hr', List.reverse_reverse]

/-- takeWhile walks through a prefix that satisfies the test. -/
theorem takeWhile_append_of_all (p : Char → Bool) (l1 l2 : Str)
    (h : ∀ a ∈ l1, p a = true) :
    (l1 ++ l2).takeWhile p = l1 ++ l2.takeWhile p := by
  induction l1 with
  | nil => simp
  | cons c t ih =>
    have hc : p c = true := h c (List.mem_cons_self c t)
    rw [List.cons_append, List.takeWhile_cons_of_pos hc,
      ih (fun a ha => h a (List.mem_cons_of_mem c ha))]
    rfl

/-- dropWhile walks past a prefix that satisfies the test. -/
theorem dropWhile_append_of_all (p : Char → Bool) (l1 l2 : Str)
    (h : ∀ a ∈ l1, p a = true) :
    (l1 ++ l2).dropWhile p = l2.dropWhile p := by
  induction l1 with
  | nil => simp
  | cons c t ih =>
    have hc : p c = true := h c (List.mem_cons_self c t)
    rw [List.cons_append, List.dropWhile_cons_of_pos hc,
      ih (fun a ha => h a (List.mem_cons_of_mem c ha))]

/-- Parsing the header line the serializer emits for a trimmed,
bracket-free name and a bracket-free non-empty creator recovers both. -/
theorem parseTitle_header (n C : Str) (flag : Bool) (hne : n ≠ [])
    (hstrip : stripSpaces n = n) (hbr : '[' ∉ n) (hC : ']' ∉ C) :
    parseTitleLine ('$' :: (n ++ (' ' :: '[' :: (C ++ [']'])))) flag =
      { name := n, creator := C, user_defined := flag } := by
  unfold parseTitleLine
  simp only [List.tail_cons]
  have hall : ∀ a ∈ n, (a != '[') = true := by
    intro a ha
    simp only [bne_iff_ne, ne_eq]
    intro hcontra
    exact hbr (hcontra ▸ ha)
  have hallC : ∀ a ∈ C, (a != ']') = true := by
    intro a ha
    simp only [bne_iff_ne, ne_eq]
    intro hcontra
    exact hC (hcontra ▸ ha)
  rw [takeWhile_append_of_all _ _ _ hall, dropWhile_append_of_all _ _ _ hall]
  rw [List.takeWhile_cons_of_pos (by decide), List.takeWhile_cons_of_neg (by decide)]
  rw [List.dropWhile_cons_of_pos (by decide), List.dropWhile_cons_of_neg (by decide)]
  simp only []
  rw [takeWhile_append_of_all _ _ _ hallC, List.takeWhile_cons_of_neg (by decide)]
  rw [show n ++ [' '] = n ++ [' '] from rfl]
  rw [stripSpaces_append_space n hne hstrip]
  simp

/-- A run of patch lines appends their Codes, in order, to the entry in
progress and hands the remaining lines the resulting state. -/
theorem parse_defaultLines (flag : Bool) (ls : List Str)
    (h : ∀ l ∈ ls, l ≠ [] ∧ l.head? ≠ some '$' ∧ l.head? ≠ some '*') :
    ∀ (rest : List Str) (gs : List GeckoCode) (cur : GeckoCode),
      (ls ++ rest).foldl (parseLine flag) (gs, cur) =
        rest.foldl (parseLine flag) (gs, { cur with codes := cur.codes ++ ls.map readCodeLine }) := by
  induction ls with
  | nil =>
    intro rest gs cur
    simp
  | cons l t ih =>
    intro rest gs cur
    obtain ⟨hne, h1, h2⟩ := h l (List.mem_cons_self l t)
    match l with
    | [] => exact absurd rfl hne
    | c :: r =>
      simp only [List.head?_cons, ne_eq, Option.some.injEq] at h1 h2
      rw [List.cons_append, List.foldl_cons]
      rw [show parseLine flag (gs, cur) (c :: r) =
          (gs, { cur with codes := cur.codes ++ [readCodeLine (c :: r)] }) from by
        simp [parseLine, h1, h2]]
      rw [ih (fun x hx => h x (List.mem_cons_of_mem (c :: r) hx)) rest gs _]
      simp [List.append_assoc]

/-- A run of note lines appends their texts, in order, to the entry in
progress and hands the remaining lines the resulting state. -/
theorem parse_noteLines (flag : Bool) (ns : List Str) :
    ∀ (rest : List Str) (gs : List GeckoCode) (cur : GeckoCode),
      (ns.map (fun note => '*' :: note) ++ rest).foldl (parseLine flag) (gs, cur) =
        rest.foldl (parseLine flag) (gs, { cur with notes := cur.notes ++ ns }) := by
  induction ns with
  | nil =>
    intro rest gs cur
    simp
  | cons nt t ih =>
    intro rest gs cur
    rw [List.map_cons, List.cons_append, List.foldl_cons]
    rw [show parseLine flag (gs, cur) ('*' :: nt) =
        (gs, { cur with notes := cur.notes ++ [nt] }) from by
      simp [parseLine]]
    rw [ih rest gs _]
    simp [List.append_assoc]

/-- C3. The claim as stated fails: a local entry holding a patch whose
original text is the empty line serializes to a header followed by an
empty line, and re-parsing skips the empty line, so the reconstructed
entry has no patches at all even though the entry is local with non-empty
name and creator. -/
theorem fill_parse_roundtrip_cex :
    (ParseCodes
        (iniWithGecko
          (FillLines ([], [])
            { name := ['A'], creator := ['C'], user_defined := true,
              codes := [{ original_line := [] }] }).1)
        [] true).map
        (fun g => (g.name, g.creator, g.codes.map (fun cd => cd.original_line), g.notes)) ≠
      [((({ name := ['A'], creator := ['C'], user_defined := true,
            codes := [{ original_line := [] }] } : GeckoCode)).name,
        ({ name := ['A'], creator := ['C'], user_defined := true,
           codes := [{ original_line := [] }] } : GeckoCode).creator,
        ({ name := ['A'], creator := ['C'], user_defined := true,
           codes := [{ original_line := [] }] } : GeckoCode).codes.map
          (fun cd => cd.original_line),
        ({ name := ['A'], creator := ['C'], user_defined := true,
           codes := [{ original_line := [] }] } : GeckoCode).notes)] := by
  decide

/-- C3 (amended). Serializing a local entry with non-empty name and
creator and re-parsing the result as the local source yields exactly one
entry with identical name, creator, patch original texts and notes,
provided additionally that the name is free of surrounding whitespace and
contains no opening bracket, the creator contains no closing bracket, and
every patch's original text is a non-empty line that starts with neither
the entry marker nor the note marker — conditions every entry the parser
itself produced satisfies. -/
theorem fill_parse_roundtrip (e : GeckoCode)
    (hu : e.user_defined = true) (hn : e.name ≠ []) (hc : e.creator ≠ [])
    (hstrip : stripSpaces e.name = e.name) (hbr : '[' ∉ e.name) (hC : ']' ∉ e.creator)
    (hcodes : ∀ cd ∈ e.codes, cd.original_line ≠ [] ∧ cd.original_line.head? ≠ some '$'
        ∧ cd.original_line.head? ≠ some '*') :
    (ParseCodes (iniWithGecko (FillLines ([], []) e).1) [] true).map
        (fun g => (g.name, g.creator, g.codes.map (fun cd => cd.original_line), g.notes)) =
      [(e.name, e.creator, e.codes.map (fun cd => cd.original_line), e.notes)] := by
  have hclen : e.creator.length ≠ 0 := by
    intro hzero
    exact hc (List.length_eq_zero.mp hzero)
  have hlines : (FillLines ([], []) e).1 =
      ('$' :: (e.name ++ (' ' :: '[' :: (e.creator ++ [']'])))) ::
        (e.codes.map (fun code => code.original_line)
          ++ e.notes.map (fun note => '*' :: note)) := by
    unfold FillLines
    rw [if_neg (by simp [hu])]
    simp [hclen]
  unfold ParseCodes
  rw [show (iniWithGecko (FillLines ([], []) e).1).getLines "Gecko" =
      (FillLines ([], []) e).1 from by simp [iniWithGecko]]
  rw [hlines, List.foldl_cons]
  rw [show parseLine true ([], ({} : GeckoCode))
        ('$' :: (e.name ++ (' ' :: '[' :: (e.creator ++ [']'])))) =
      ([], { name := e.name, creator := e.creator, user_defined := true }) from by
    simp only [parseLine, if_pos rfl]
    rw [parseTitle_header e.name e.creator true hn hstrip hbr hC]
    simp]
  rw [parse_defaultLines true (e.codes.map (fun code => code.original_line))
      (by
        intro l hl
        rcases List.mem_map.mp hl with ⟨cd, hcd, rfl⟩
        exact hcodes cd hcd)
      (e.notes.map (fun note => '*' :: note)) []
      { name := e.name, creator := e.creator, user_defined := true }]
  rw [show (e.notes.map (fun note => '*' :: note)) =
      (e.notes.map (fun note => '*' :: note)) ++ [] from by simp]
  rw [parse_noteLines true e.notes []]
  rw [List.foldl_nil]
  rw [if_pos (by simpa using hn)]
  simp [List.map_map, readCodeLine, Function.comp]

/-- C3 witness: a concrete local entry with creator, one patch line and one
note round-trips. -/
theorem fill_parse_roundtrip_wit :
    (ParseCodes
        (iniWithGecko
          (FillLines ([], [])
            { name := ['A'], creator := ['C', 'r'], user_defined := true,
              codes := [{ address := 0, data := 1, original_line := ['0', ' ', '1'] }],
              notes := [['n']] }).1)
        [] true).map
        (fun g => (g.name, g.creator, g.codes.map (fun cd => cd.original_line), g.notes)) =
      [(({ name := ['A'], creator := ['C', 'r'], user_defined := true,
           codes := [{ address := 0, data := 1, original_line := ['0', ' ', '1'] }],
           notes := [['n']] } : GeckoCode).name,
        ({ name := ['A'], creator := ['C', 'r'], user_defined := true,
           codes := [{ address := 0, data := 1, original_line := ['0', ' ', '1'] }],
           notes := [['n']] } : GeckoCode).creator,
        ({ name := ['A'], creator := ['C', 'r'], user_defined := true,
           codes := [{ address := 0, data := 1, original_line := ['0', ' ', '1'] }],
           notes := [['n']] } : GeckoCode).codes.map (fun cd => cd.original_line),
        ({ name := ['A'], creator := ['C', 'r'], user_defined := true,
           codes := [{ address := 0, data := 1, original_line := ['0', ' ', '1'] }],
           notes := [['n']] } : GeckoCode).notes)] :=
  fill_parse_roundtrip
    { name := ['A'], creator := ['C', 'r'], user_defined := true,
      codes := [{ address := 0, data := 1, original_line := ['0', ' ', '1'] }],
      notes := [['n']] }
    rfl (by decide) (by decide) (by decide) (by decide) (by decide) (by decide)

end Gecko
